import Mathlib

/-!
Verification development for the skt test-job orchestration engine.

The pure logic of `skt/misc.py` and `skt/__init__.py` is embedded directly
from the source.  The Beaker runner module itself is not part of the source
tree (only its test suite is), so the runner-side definitions below are
modelled from the specification, as indicated in their doc comments.

Python strings are embedded as `List Char`; fallible Python code (code that
can raise) is embedded with `Option`/`Except` results.
-/

namespace Skt

/-! Section: join_with_slash (skt/misc.py) -/

/-! Section: get_patch_name (skt/__init__.py and skt/misc.py)

Both files define `get_patch_name(content)` with an identical header
extraction (`email.parser.Parser().parsestr(content, True)` followed by the
`Subject` lookup and the falsy check) and an identical
`email.header.decode_header` call, but they normalize header folding
differently.  The shared parts are embedded once and used by both. -/

/-! Section: The polling state machine and the result aggregator

The Beaker runner module is not part of the source tree (only its test suite
is), so the definitions of this section are modelled from the specification:
per-task outcomes, per-recipe-set classification during polling, the shared
abort budget, the result fold, and the `run` entry point. -/

/-! Section: Interrupt cleanup (InterruptGuard) -/

/-! Section: Template rendering (__getxml) -/

/-! Section: Host-requirement trees (__blacklist_hreq and __recipe_set_to_job)

Job descriptions and result trees are XML documents; attributes are kept in
document order, as ElementTree serializes them. -/

/-! Section: Submission acknowledgment parsing (__jobsubmit)

The external submission tool acknowledges a job with a line of the form
`Submitted: [<quoted-id>, <quoted-id>, ...]`; any other output is a dispatch
error. -/

/-- Verdict code `SKT_SUCCESS` from skt/misc.py. -/
def SKT_SUCCESS : Nat := 0

/-- Verdict code `SKT_FAIL` from skt/misc.py. -/
def SKT_FAIL : Nat := 1

/-- Verdict code `SKT_ERROR` from skt/misc.py. -/
def SKT_ERROR : Nat := 2

/-- Modelled from the spec: the Boot-failure verdict code (value 3), which the
spec reserves for a boot-stage-specific infrastructure failure; `skt/misc.py`
itself defines only the first three codes. -/
def SKT_BOOT : Nat := 3

/-- Python `s.rstrip(c)` for a single strip character: remove every trailing
occurrence of `c`. -/
def rstripChar (c : Char) (s : List Char) : List Char :=
  (s.reverse.dropWhile (fun d => d = c)).reverse

/-- Python `s.strip(c)` for a single strip character: remove every leading and
trailing occurrence of `c`. -/
def stripChar (c : Char) (s : List Char) : List Char :=
  rstripChar c (s.dropWhile (fun d => d = c))

/-- Python `s.endswith(c)` for a one-character suffix. -/
def endsWithChar (c : Char) (s : List Char) : Bool :=
  s.getLast? = some c

/-- Embedding of `join_with_slash(base, *suffix_tuple)` from skt/misc.py.
The trailing-slash computation reads the loop variable `arg` after the loop,
i.e. the last element of `suffix_tuple`; with an empty `suffix_tuple` the
variable is unbound and Python raises `NameError`, embedded here as `none`. -/
def join_with_slash (base : List Char) (suffix_tuple : List (List Char)) :
    Option (List Char) :=
  match suffix_tuple.getLast? with
  | none => none
  | some arg =>
    let parts := rstripChar '/' base :: suffix_tuple.map (stripChar '/')
    let ending := if endsWithChar '/' arg then ['/'] else []
    some (List.intercalate ['/'] parts ++ ending)

/-- Split a list at every occurrence of the separator character, keeping empty
segments, as Python line splitting does. -/
def splitOnChar (sep : Char) : List Char → List (List Char)
  | [] => [[]]
  | c :: rest =>
    let r := splitOnChar sep rest
    if c = sep then [] :: r
    else
      match r with
      | [] => [[c]]
      | l :: ls => (c :: l) :: ls

/-- Split a header line at its first colon, returning the name and the raw
text after the colon; `none` when the line has no colon. -/
def splitColon : List Char → Option (List Char × List Char)
  | [] => none
  | c :: rest =>
    if c = ':' then some ([], rest)
    else (splitColon rest).map (fun p => (c :: p.1, p.2))

/-- Space or horizontal tab, the characters stripped from the start of a
header value and the characters that mark a folded continuation line. -/
def isSpaceTab (c : Char) : Bool := c = ' ' ∨ c = '\t'

/-- Continuation lines of a folded header start with a space or tab. -/
def isContinuationLine (l : List Char) : Bool :=
  match l with
  | [] => false
  | c :: _ => isSpaceTab c

/-- Header-block parser modelling Python `email.parser` (compat32,
headersonly): a blank line or a colon-free line ends the headers, a line
starting with space or tab is appended verbatim (preceded by the newline) to
the pending header value, and a header value is the text after the first
colon with leading spaces and tabs stripped. -/
def parseHeadersAux (acc : List (List Char × List Char))
    (pending : Option (List Char × List Char)) :
    List (List Char) → List (List Char × List Char)
  | [] => acc ++ pending.toList
  | l :: rest =>
    if l = [] then acc ++ pending.toList
    else if isContinuationLine l then
      match pending with
      | some p => parseHeadersAux acc (some (p.1, p.2 ++ '\n' :: l)) rest
      | none => acc
    else
      match splitColon l with
      | some p =>
        parseHeadersAux (acc ++ pending.toList)
          (some (p.1, p.2.dropWhile isSpaceTab)) rest
      | none => acc ++ pending.toList

/-- Headers of an mbox string: lines are split at newlines, a leading mbox
`From ` envelope line is skipped, and the remaining lines are parsed as a
header block. -/
def parseMessageHeaders (content : List Char) : List (List Char × List Char) :=
  let ls := splitOnChar '\n' content
  let ls' :=
    match ls with
    | l :: rest => if l.take 5 = ('F' :: 'r' :: 'o' :: 'm' :: [' ']) then rest else ls
    | [] => ls
  parseHeadersAux [] none ls'

/-- Case-insensitive lookup of the first `Subject` header, as
`headers[&quot;Subject&quot;]` performs in both copies of `get_patch_name`. -/
def extractSubject (content : List Char) : Option (List Char) :=
  ((parseMessageHeaders content).find?
      (fun h => h.1.map Char.toLower = ('s' :: 'u' :: 'b' :: 'j' :: 'e' :: 'c' :: ['t']))).map
    (fun h => h.2)

/-- The RFC 2047 encoded-word introducer `=?`. -/
def encodedWordIntro : List Char := ['=', '?']

/-- Substring test: does `pat` occur contiguously inside the list? -/
def containsSub (pat : List Char) : List Char → Bool
  | [] => pat.isPrefixOf []
  | c :: rest => pat.isPrefixOf (c :: rest) || containsSub pat rest

/-- Embedding of `email.header.decode_header` followed by the `join` of the
decoded chunks, shared by both copies of `get_patch_name`.  A subject without
an encoded word decodes to itself in a single chunk; subjects containing the
encoded-word introducer need charset decoding and are outside this model
(`none`). -/
def decodeHeaderJoin (subject : List Char) : Option (List Char) :=
  if containsSub encodedWordIntro subject then none else some subject

/-- Stub name returned by both copies when the `Subject` header is missing or
empty. -/
def subjectMissingStub : List Char :=
  ['<', 'S', 'U', 'B', 'J', 'E', 'C', 'T', ' ', 'M', 'I', 'S', 'S', 'I', 'N', 'G', '>']

/-- Embedding of `re.sub(r&#39;\r?\n[ \t]&#39;, &#39; &#39;, subject)` from
skt/misc.py: every newline (optionally preceded by a carriage return) that is
followed by a space or tab is replaced, together with that space or tab, by a
single space; matches are found left to right and do not overlap. -/
def reSubFold : List Char → List Char
  | '\r' :: '\n' :: c :: rest =>
    if isSpaceTab c then ' ' :: reSubFold rest
    else '\r' :: reSubFold ('\n' :: c :: rest)
  | '\n' :: c :: rest =>
    if isSpaceTab c then ' ' :: reSubFold rest
    else '\n' :: reSubFold (c :: rest)
  | c :: rest => c :: reSubFold rest
  | [] => []

/-- Embedding of the normalization in skt/__init__.py:
`subject.replace(&#39;\n&#39;, &#39; &#39;).replace(&#39;\t&#39;, &#39;&#39;).replace(&#39;\r&#39;, &#39;&#39;)`. -/
def initNormalize (subject : List Char) : List Char :=
  (((subject.map (fun c => if c = '\n' then ' ' else c)).filter
      (fun c => ¬ c = '\t')).filter (fun c => ¬ c = '\r'))

/-- Embedding of `get_patch_name(content)` from skt/misc.py.  `none` marks
contents outside the decode-header model (encoded-word subjects). -/
def misc_get_patch_name (content : List Char) : Option (List Char) :=
  match extractSubject content with
  | none => some subjectMissingStub
  | some [] => some subjectMissingStub
  | some subject => decodeHeaderJoin (reSubFold subject)

/-- Embedding of `get_patch_name(content)` from skt/__init__.py.  `none` marks
contents outside the decode-header model (encoded-word subjects). -/
def init_get_patch_name (content : List Char) : Option (List Char) :=
  match extractSubject content with
  | none => some subjectMissingStub
  | some [] => some subjectMissingStub
  | some subject => decodeHeaderJoin (initNormalize subject)

/-- The extracted subject of the given content, if any, contains no newline,
tab, or carriage-return character. -/
def subjectCleanFor (content : List Char) : Bool :=
  match extractSubject content with
  | none => true
  | some subject => subject.all (fun c => !(c == '\n' || c == '\t' || c == '\r'))

/-- Per-task outcome recorded by the external scheduler (spec section 3). -/
inductive TaskResult where
  | Pass | Warn | Fail | Panic | NoResult
  deriving DecidableEq

/-- Modelled from the spec: a task has an outcome and a `waived` flag that
downgrades any non-Pass outcome to non-failing. -/
structure BTask where
  result : TaskResult
  waived : Bool
  deriving DecidableEq

/-- Modelled from the spec: a task counts as a failure unless its outcome is
Pass or it is marked waived (spec section 4.6). -/
def taskFailed (t : BTask) : Bool :=
  match t.result with
  | TaskResult.Pass => false
  | _ => !t.waived

/-- Modelled from the spec: a completed recipe set, with its `soak` flag
(excluded from the pass/fail fold) and its recorded tasks. -/
structure RSet where
  soak : Bool
  tasks : List BTask
  deriving DecidableEq

/-- A recipe set contains a counted task failure. -/
def rsFailed (rs : RSet) : Bool := rs.tasks.any taskFailed

/-- Modelled from the spec: `__getresults` folds the completed recipe sets
into a verdict: Error when the abort budget was exhausted, Error when no
recipe set completed (all were aborted or cancelled, test_getresults_aborted),
Failure when some completed non-soak recipe set contains a counted task
failure, and Success otherwise.  Soak recipe sets never enter the fold. -/
def getresults (budgetExhausted : Bool) (sets : List RSet) : Nat :=
  if budgetExhausted then SKT_ERROR
  else if sets.isEmpty then SKT_ERROR
  else if sets.any (fun rs => !rs.soak && rsFailed rs) then SKT_FAIL
  else SKT_SUCCESS

/-- Modelled from the spec: how one poll iteration classifies one recipe set
(spec section 4.4): still in progress, completed, or infrastructurally failed
(aborted / cancelled). -/
inductive SetClass where
  | stillRunning | completedSet | infraFailed
  deriving DecidableEq

/-- The classification charges the shared abort budget. -/
def isInfra : SetClass → Bool
  | SetClass.infraFailed => true
  | _ => false

/-- State of the polling loop: the remaining abort budget (a single counter
shared by all recipe sets) and whether the run has escalated to Error. -/
structure PollState where
  budget : Nat
  escalated : Bool
  deriving DecidableEq

/-- Modelled from the spec: one classification event processed by the polling
loop.  After escalation the loop is tearing down and the state is frozen.  An
infrastructurally failed recipe set decrements the shared abort budget, and
the run escalates exactly when the budget is exhausted by that decrement. -/
def pollStep (s : PollState) (e : SetClass) : PollState :=
  if s.escalated then s
  else
    match e with
    | SetClass.infraFailed =>
      let b := s.budget - 1
      { budget := b, escalated := b = 0 }
    | _ => s

/-- The polling loop over a whole run: the abort budget starts at
`maxAborted` and every classification event is folded through `pollStep`. -/
def pollRun (maxAborted : Nat) (events : List SetClass) : PollState :=
  events.foldl pollStep { budget := maxAborted, escalated := false }

/-- Number of infrastructure failures among the classification events. -/
def countInfra (events : List SetClass) : Nat := events.countP isInfra

/-- Modelled from the spec: the `run(...)` entry point.  A dispatch error is
surfaced immediately as Error; without `wait` the verdict is Success right
after dispatch; with `wait` the polling loop runs and the aggregator folds the
completed recipe sets, with Error when the loop escalated. -/
def runModel (wait : Bool) (dispatchOK : Bool) (maxAborted : Nat)
    (events : List SetClass) (sets : List RSet) : Nat :=
  if !dispatchOK then SKT_ERROR
  else if !wait then SKT_SUCCESS
  else getresults (pollRun maxAborted events).escalated sets

/-- Two runs agree on everything except possibly the task outcomes inside
soak recipe sets: same length, pointwise equal `soak` flags, and pointwise
equal entries wherever the entry is not soak. -/
def soakAligned : List RSet → List RSet → Bool
  | [], [] => true
  | x :: xs, y :: ys =>
    (if x.soak then y.soak else decide (x = y)) && soakAligned xs ys
  | _, _ => false

/-- Modelled from the spec: the runner state seen by the interrupt cleanup,
namely the `cleanup_done` idempotency flag and the map of jobs still
tracked (represented by their identifiers). -/
structure CleanupState where
  cleanup_done : Bool
  trackedJobs : List (List Char)
  deriving DecidableEq

/-- Modelled from the spec: one invocation of the interrupt cleanup.  If the
idempotency flag is already set it performs no external call; otherwise it
sets the flag, cancels (and forgets) every tracked job, and reports one
external cancellation call per tracked job. -/
def cleanup (s : CleanupState) : CleanupState × Nat :=
  if s.cleanup_done then (s, 0)
  else ({ cleanup_done := true, trackedJobs := [] }, s.trackedJobs.length)

/-- Total number of external cancellation calls performed by `n` successive
cleanup invocations (one per arriving interrupt signal) from a given state. -/
def cleanupCalls : CleanupState → Nat → Nat
  | _, 0 => 0
  | s, n + 1 => (cleanup s).2 + cleanupCalls (cleanup s).1 n

/-- A Python value supplied in the substitution map: a string, `None`, or
some other non-string object. -/
inductive PyValue where
  | pyStr (s : List Char)
  | pyNone
  | pyOther
  deriving DecidableEq

/-- The supplied value is a Python string. -/
def isPyStr : PyValue → Bool
  | PyValue.pyStr _ => true
  | _ => false

/-- Python `text.replace(pat, rep)` for a non-empty pattern: replace every
non-overlapping occurrence, scanning left to right. -/
def replaceAll (pat rep : List Char) : List Char → List Char
  | [] => []
  | c :: cs =>
    if h : pat ≠ [] ∧ pat.isPrefixOf (c :: cs) then
      rep ++ replaceAll pat rep ((c :: cs).drop pat.length)
    else
      c :: replaceAll pat rep cs
  termination_by l => l.length
  decreasing_by
  · simp only [List.length_drop, List.length_cons]
    have : 1 ≤ pat.length := List.length_pos.mpr h.1
    omega
  · simp

/-- The placeholder token `##NAME##` for a substitution key. -/
def placeholder (key : List Char) : List Char :=
  '#' :: '#' :: key ++ ['#', '#']

/-- Modelled from the spec: `__getxml` renders the job template by replacing
each `##NAME##` placeholder with the mapped value; every value must be a
string, and a non-string value (including `None`) raises `ValueError`
instead of being stringified into the job description. -/
def getxml (template : List Char) :
    List (List Char × PyValue) → Except Unit (List Char)
  | [] => Except.ok template
  | (key, v) :: rest =>
    match v with
    | PyValue.pyStr s => getxml (replaceAll (placeholder key) s template) rest
    | _ => Except.error ()

/-- An XML element: tag, attributes, children.  Text content plays no role in
the host-requirement logic and is omitted. -/
inductive Xml where
  | node (tag : String) (attrs : List (String × String)) (children : List Xml)

/-- Tag of an element. -/
def tagOf : Xml → String
  | Xml.node t _ _ => t

/-- Direct children of an element. -/
def childrenOf : Xml → List Xml
  | Xml.node _ _ ch => ch

/-- The exclusion constraint `&lt;hostname op=&quot;!=&quot; value=h/&gt;`
appended for one blacklisted host. -/
def hostnameConstraint (h : String) : Xml :=
  Xml.node "hostname" [("op", "!="), ("value", h)] []

/-- Is this element exactly the exclusion constraint for host `h`? -/
def isConstraintFor (h : String) : Xml → Bool
  | Xml.node t a ch =>
    t = "hostname" && decide (a = [("op", "!="), ("value", h)]) && ch.isEmpty

mutual

/-- Number of occurrences of the exclusion constraint for `h` in a tree. -/
def countCons (h : String) : Xml → Nat
  | Xml.node t a ch =>
    (if isConstraintFor h (Xml.node t a ch) then 1 else 0) + countConsL h ch

/-- Number of occurrences of the exclusion constraint for `h` in a forest. -/
def countConsL (h : String) : List Xml → Nat
  | [] => 0
  | x :: xs => countCons h x + countConsL h xs

end

/-- Is this element the `&lt;and&gt;` conjunction container? -/
def isAndNode (x : Xml) : Bool := tagOf x = "and"

/-- Does the element have a direct `&lt;and&gt;` child? -/
def hasAndChild (x : Xml) : Bool := (childrenOf x).any isAndNode

/-- Number of direct `&lt;and&gt;` children of an element. -/
def countAndChildren (x : Xml) : Nat := (childrenOf x).countP isAndNode

/-- Append the given constraints to the children of the first `&lt;and&gt;`
element of the list. -/
def appendToFirstAnd (cons : List Xml) : List Xml → List Xml
  | [] => []
  | x :: xs =>
    if isAndNode x then
      (match x with | Xml.node t a ch => Xml.node t a (ch ++ cons)) :: xs
    else x :: appendToFirstAnd cons xs

/-- Modelled from the spec: `__blacklist_hreq` injects one hostname-not-equal
exclusion constraint per blacklisted host into the host-requirement subtree:
into the existing `&lt;and&gt;` conjunction container if the subtree has one,
otherwise into a newly created one (test_blacklist_hreq_noand,
test_blacklist_hreq_whnames). -/
def blacklist_hreq (blacklisted : List String) (hreq : Xml) : Xml :=
  match hreq with
  | Xml.node t a ch =>
    let cons := blacklisted.map hostnameConstraint
    if ch.any isAndNode then Xml.node t a (appendToFirstAnd cons ch)
    else Xml.node t a (ch ++ [Xml.node "and" [] cons])

mutual

/-- Remove every element tagged `tg` from a tree (keeping the root). -/
def stripTag (tg : String) : Xml → Xml
  | Xml.node t a ch => Xml.node t a (stripTagL tg ch)

/-- Remove every element tagged `tg` from a forest. -/
def stripTagL (tg : String) : List Xml → List Xml
  | [] => []
  | x :: xs =>
    if tagOf x = tg then stripTagL tg xs else stripTag tg x :: stripTagL tg xs

end

mutual

/-- Number of elements tagged `tg` in a tree. -/
def countTag (tg : String) : Xml → Nat
  | Xml.node t _ ch => (if t = tg then 1 else 0) + countTagL tg ch

/-- Number of elements tagged `tg` in a forest. -/
def countTagL (tg : String) : List Xml → Nat
  | [] => 0
  | x :: xs => countTag tg x + countTagL tg xs

end

/-- Modelled from the spec: `__recipe_set_to_job` wraps a failed recipe set
into a narrowed single-recipe-set job description; without the `samehost`
override every hostname (host-identity) constraint is stripped so the retry
is not pinned to the same host, and with it the original host pin is
preserved (test_recipe_set_to_job, test_recipe_set_to_job_whst). -/
def recipe_set_to_job (rs : Xml) (samehost : Bool) : Xml :=
  Xml.node "job" [] [if samehost then rs else stripTag "hostname" rs]

/-- The single-quote character delimiting each identifier. -/
def sq : Char := Char.ofNat 39

/-- Scan up to the first closing quote: the text before it and the rest
after it. -/
def splitQuote : List Char → Option (List Char × List Char)
  | [] => none
  | c :: rest =>
    if c = sq then some ([], rest)
    else (splitQuote rest).map (fun p => (c :: p.1, p.2))

/-- Fuel-indexed parser for the bracketed, quoted, comma-separated identifier
list: after an opening quote the identifier runs to the closing quote, and is
followed either by the closing bracket at end of line or by a comma-space and
another quoted identifier. -/
def parseIdsF : Nat → List Char → Option (List (List Char))
  | 0, _ => none
  | _ + 1, [] => none
  | fuel + 1, c :: rest =>
    if c = sq then
      match splitQuote rest with
      | none => none
      | some (id, rest') =>
        if rest' = [']'] then some [id]
        else
          match rest' with
          | c1 :: c2 :: rest2 =>
            if c1 = ',' ∧ c2 = ' ' then (parseIdsF fuel rest2).map (fun ids => id :: ids)
            else none
          | _ => none
    else none

/-- Parser for the identifier list, with enough fuel for its input. -/
def parseIds (cs : List Char) : Option (List (List Char)) := parseIdsF cs.length cs

/-- The fixed line prefix of the acknowledgment grammar. -/
def submittedMarker : List Char := ("Submitted: [").data

/-- Parse one line of tool output against the acknowledgment grammar. -/
def parseAckLine (l : List Char) : Option (List (List Char)) :=
  if l.take 12 = submittedMarker then parseIds (l.drop 12) else none

/-- Modelled from the spec: `__jobsubmit` scans the submission tool's output
for an acknowledgment line matching the grammar and returns the identifier
list of the first such line; if no line matches, the submission fails
(test_jobsubmit, test_jobsubmit_exc). -/
def jobsubmit (stdout : List Char) : Except Unit (List (List Char)) :=
  match (splitOnChar '\n' stdout).findSome? parseAckLine with
  | some ids => Except.ok ids
  | none => Except.error ()

/-- Render the quoted, comma-separated identifier list. -/
def renderIds : List (List Char) → List Char
  | [] => [']']
  | [id] => sq :: id ++ [sq, ']']
  | id :: rest => sq :: id ++ [sq, ',', ' '] ++ renderIds rest

/-- Render a full acknowledgment line for an identifier list. -/
def renderAckLine (ids : List (List Char)) : List Char :=
  submittedMarker ++ renderIds ids

theorem reSubFold_of_no_newline (s : List Char) (h : '\n' ∉ s) :
    reSubFold s = s := by
  induction s with
  | nil => rfl
  | cons c rest ih =>
    have hc : c ≠ '\n' := fun e => h (e ▸ List.mem_cons_self c rest)
    have hr : '\n' ∉ rest := fun m => h (List.mem_cons_of_mem c m)
    rw [reSubFold.eq_def]
    rcases rest with _ | ⟨d, rest'⟩
    · simp [hc, reSubFold]
    · have hd : d ≠ '\n' := fun e => hr (e ▸ List.mem_cons_self d rest')
      rcases rest' with _ | ⟨e, rest''⟩ <;> simp [hc, hd, ih hr]

theorem initNormalize_of_clean (s : List Char)
    (h : ∀ c ∈ s, c ≠ '\n' ∧ c ≠ '\t' ∧ c ≠ '\r') : initNormalize s = s := by
  induction s with
  | nil => rfl
  | cons c cs ih =>
    obtain ⟨h1, h2, h3⟩ := h c (List.mem_cons_self c cs)
    have ih' := ih (fun x hx => h x (List.mem_cons_of_mem c hx))
    simp only [initNormalize] at ih' ⊢
    simp [List.filter_cons, h1, h2, h3] at ih' ⊢
    exact ih'

/-- C10 (amended): the two duplicate definitions of `get_patch_name` return
equal patch names for every mbox content whose extracted subject contains no
newline, tab, or carriage-return character (in particular every single-line
subject, and every content with a missing or empty subject); they differ on
folded subjects. -/
theorem C10_get_patch_name_agree (content : List Char)
    (h : subjectCleanFor content = true) :
    init_get_patch_name content = misc_get_patch_name content := by
  cases hs : extractSubject content with
  | none => simp [init_get_patch_name, misc_get_patch_name, hs]
  | some subject =>
    cases subject with
    | nil => simp [init_get_patch_name, misc_get_patch_name, hs]
    | cons c cs =>
      have h' : (c :: cs).all (fun x => !(x == '\n' || x == '\t' || x == '\r')) = true := by
        unfold subjectCleanFor at h
        rw [hs] at h
        exact h
      have hall : ∀ x ∈ c :: cs, x ≠ '\n' ∧ x ≠ '\t' ∧ x ≠ '\r' := by
        intro x hx
        have hb := List.all_eq_true.mp h' x hx
        simp only [Bool.not_eq_true', Bool.or_eq_false_iff, beq_eq_false_iff_ne] at hb
        exact ⟨hb.1.1, hb.1.2, hb.2⟩
      simp only [init_get_patch_name, misc_get_patch_name, hs]
      rw [reSubFold_of_no_newline _ (fun m => (hall _ m).1 rfl),
        initNormalize_of_clean _ hall]

/-- C10 counterexample: on the mbox content `Subject: a\n b` (a subject folded
with a newline and a space, the standard folding), skt/misc.py collapses the
fold to one space while skt/__init__.py turns the newline into a space and
keeps the original space, so the two definitions disagree. -/
theorem C10_get_patch_name_differ :
    misc_get_patch_name ("Subject: a\n b\n\nbody").data = some ("a b").data ∧
    init_get_patch_name ("Subject: a\n b\n\nbody").data = some ("a  b").data ∧
    misc_get_patch_name ("Subject: a\n b\n\nbody").data ≠
      init_get_patch_name ("Subject: a\n b\n\nbody").data := by
  refine ⟨by decide, by decide, by decide⟩

/-- C10 witness: a concrete single-line subject on which the amended claim
applies and both definitions agree. -/
theorem C10_get_patch_name_agree_witness :
    subjectCleanFor ("Subject: hello\n\nbody").data = true ∧
    init_get_patch_name ("Subject: hello\n\nbody").data =
      misc_get_patch_name ("Subject: hello\n\nbody").data :=
  ⟨by decide, C10_get_patch_name_agree _ (by decide)⟩

/-- C9: `join_with_slash` errors on an empty suffix tuple (the trailing-slash
computation reads the last suffix, which is unbound), and its result is
defined whenever at least one suffix is supplied. -/
theorem C9_join_with_slash_requires_suffix :
    (∀ base : List Char, join_with_slash base [] = none) ∧
    (∀ (base : List Char) (sfx : List (List Char)), sfx ≠ [] →
      (join_with_slash base sfx).isSome = true) := by
  constructor
  · intro base; rfl
  · intro base sfx h
    unfold join_with_slash
    cases hl : sfx.getLast? with
    | none => exact absurd (List.getLast?_eq_none_iff.mp hl) h
    | some a => simp

/-- C9 witness: concrete evaluations of both halves. -/
theorem C9_join_with_slash_requires_suffix_witness :
    join_with_slash ("http://x").data [] = none ∧
    (join_with_slash ("http://x").data [("p").data]).isSome = true :=
  ⟨C9_join_with_slash_requires_suffix.1 _,
   C9_join_with_slash_requires_suffix.2 _ _ (by decide)⟩

theorem pollStep_budget_le (s : PollState) (e : SetClass) :
    (pollStep s e).budget ≤ s.budget := by
  unfold pollStep
  split
  · exact le_refl _
  · cases e <;> simp

theorem foldl_pollStep_budget_le (evs : List SetClass) :
    ∀ s : PollState, (evs.foldl pollStep s).budget ≤ s.budget := by
  induction evs with
  | nil => intro s; exact le_refl _
  | cons e evs ih =>
    intro s
    exact le_trans (ih (pollStep s e)) (pollStep_budget_le s e)

theorem foldl_pollStep_frozen (evs : List SetClass) :
    ∀ s : PollState, s.escalated = true → evs.foldl pollStep s = s := by
  induction evs with
  | nil => intro s _; rfl
  | cons e evs ih =>
    intro s hs
    rw [List.foldl_cons, show pollStep s e = s from by unfold pollStep; rw [if_pos hs]]
    exact ih s hs

theorem foldl_pollStep_spec (evs : List SetClass) :
    ∀ s : PollState, s.escalated = false →
      (evs.foldl pollStep s).budget = s.budget - countInfra evs ∧
      ((evs.foldl pollStep s).escalated = true ↔ max s.budget 1 ≤ countInfra evs) := by
  induction evs with
  | nil =>
    intro s hs
    refine ⟨rfl, ?_⟩
    simp [countInfra, hs]
  | cons e evs ih =>
    intro s hs
    cases e with
    | stillRunning =>
      have hstep : pollStep s SetClass.stillRunning = s := by
        unfold pollStep; rw [if_neg (by rw [hs]; exact Bool.false_ne_true)]
      rw [List.foldl_cons, hstep]
      have h := ih s hs
      simpa [countInfra, isInfra] using h
    | completedSet =>
      have hstep : pollStep s SetClass.completedSet = s := by
        unfold pollStep; rw [if_neg (by rw [hs]; exact Bool.false_ne_true)]
      rw [List.foldl_cons, hstep]
      have h := ih s hs
      simpa [countInfra, isInfra] using h
    | infraFailed =>
      have hcount : countInfra (SetClass.infraFailed :: evs) = countInfra evs + 1 := by
        simp [countInfra, isInfra]
      by_cases hb : s.budget - 1 = 0
      · have hstep : pollStep s SetClass.infraFailed =
            { budget := s.budget - 1, escalated := true } := by
          unfold pollStep
          rw [if_neg (by rw [hs]; exact Bool.false_ne_true)]
          simp [hb]
        rw [List.foldl_cons, hstep,
          foldl_pollStep_frozen evs { budget := s.budget - 1, escalated := true } rfl]
        rw [hcount]
        refine ⟨?_, ?_⟩
        · show s.budget - 1 = s.budget - (countInfra evs + 1)
          omega
        · show (true = true ↔ max s.budget 1 ≤ countInfra evs + 1)
          simp
          omega
      · have hstep : pollStep s SetClass.infraFailed =
            { budget := s.budget - 1, escalated := false } := by
          unfold pollStep
          rw [if_neg (by rw [hs]; exact Bool.false_ne_true)]
          simp [hb]
        rw [List.foldl_cons, hstep, hcount]
        have h := ih { budget := s.budget - 1, escalated := false } rfl
        refine ⟨?_, ?_⟩
        · rw [h.1]; simp only; omega
        · rw [h.2]; simp only; omega

/-- C2: within one run, the shared abort budget counter never increases across
any sequence of poll iterations, and the run escalates to the Error verdict
exactly when the counter reaches zero through a decrement, never before. -/
theorem C2_abort_budget :
    (∀ (m : Nat) (pre suf : List SetClass),
      (pollRun m (pre ++ suf)).budget ≤ (pollRun m pre).budget)
  ∧ (∀ (m : Nat) (evs : List SetClass),
      ((pollRun m evs).escalated = true ↔
        ((pollRun m evs).budget = 0 ∧ 1 ≤ countInfra evs)))
  ∧ (∀ (m : Nat) (evs : List SetClass) (sets : List RSet),
      (pollRun m evs).escalated = true → runModel true true m evs sets = SKT_ERROR) := by
  refine ⟨?_, ?_, ?_⟩
  · intro m pre suf
    unfold pollRun
    rw [List.foldl_append]
    exact foldl_pollStep_budget_le suf _
  · intro m evs
    have h := foldl_pollStep_spec evs { budget := m, escalated := false } rfl
    unfold pollRun
    rw [h.1, h.2]
    simp only
    omega
  · intro m evs sets h
    simp [runModel, getresults, h]

/-- C2 witness: the theorem applied to concrete runs. -/
theorem C2_abort_budget_witness :
    (pollRun 3 ([SetClass.infraFailed] ++ [SetClass.stillRunning])).budget ≤
      (pollRun 3 [SetClass.infraFailed]).budget ∧
    runModel true true 1 [SetClass.infraFailed] [] = SKT_ERROR :=
  ⟨C2_abort_budget.1 3 [SetClass.infraFailed] [SetClass.stillRunning],
   C2_abort_budget.2.2 1 [SetClass.infraFailed] [] (by decide)⟩

theorem soakAligned_any (sets1 sets2 : List RSet)
    (h : soakAligned sets1 sets2 = true) :
    sets1.any (fun rs => !rs.soak && rsFailed rs) =
      sets2.any (fun rs => !rs.soak && rsFailed rs) ∧
    sets1.isEmpty = sets2.isEmpty := by
  induction sets1 generalizing sets2 with
  | nil =>
    cases sets2 with
    | nil => exact ⟨rfl, rfl⟩
    | cons y ys => exact absurd h (by simp [soakAligned])
  | cons x xs ih =>
    cases sets2 with
    | nil => exact absurd h (by simp [soakAligned])
    | cons y ys =>
      rw [show soakAligned (x :: xs) (y :: ys) =
          ((if x.soak then y.soak else decide (x = y)) && soakAligned xs ys) from rfl,
        Bool.and_eq_true] at h
      have htail := (ih ys h.2).1
      refine ⟨?_, rfl⟩
      rw [List.any_cons, List.any_cons, htail]
      by_cases hx : x.soak
      · have hy : y.soak = true := by
          have := h.1
          rw [if_pos hx] at this
          exact this
        rw [hx, hy]
        simp
      · have hxy : x = y := by
          have := h.1
          rw [if_neg hx] at this
          exact of_decide_eq_true this
        rw [hxy]

/-- C1: soak isolation of the verdict.  With `wait`, a non-escalated run in
which every failing recipe set is soak returns Success; a non-escalated run
containing a failing non-soak recipe set returns Failure; and changing only
soak recipe sets' task outcomes never changes the verdict in either
direction. -/
theorem C1_soak_isolation :
    (∀ (m : Nat) (evs : List SetClass) (sets : List RSet),
      (pollRun m evs).escalated = false → sets ≠ [] →
      (∀ rs ∈ sets, rsFailed rs = true → rs.soak = true) →
      runModel true true m evs sets = SKT_SUCCESS)
  ∧ (∀ (m : Nat) (evs : List SetClass) (sets : List RSet) (rs : RSet),
      (pollRun m evs).escalated = false → rs ∈ sets → rsFailed rs = true →
      rs.soak = false →
      runModel true true m evs sets = SKT_FAIL)
  ∧ (∀ (wait dispatchOK : Bool) (m : Nat) (evs : List SetClass)
      (sets1 sets2 : List RSet),
      soakAligned sets1 sets2 = true →
      runModel wait dispatchOK m evs sets1 = runModel wait dispatchOK m evs sets2) := by
  refine ⟨?_, ?_, ?_⟩
  · intro m evs sets hesc hne honly
    have hany : sets.any (fun rs => !rs.soak && rsFailed rs) = false := by
      rw [List.any_eq_false]
      intro rs hrs
      by_cases hf : rsFailed rs = true
      · rw [honly rs hrs hf]
        simp
      · simp [hf]
    simp [runModel, getresults, hesc, hany, hne]
  · intro m evs sets rs hesc hmem hfail hsoak
    have hany : sets.any (fun x => !x.soak && rsFailed x) = true := by
      rw [List.any_eq_true]
      exact ⟨rs, hmem, by rw [hsoak, hfail]; rfl⟩
    have hne : sets ≠ [] := List.ne_nil_of_mem hmem
    simp [runModel, getresults, hesc, hany, hne]
  · intro wait dispatchOK m evs sets1 sets2 h
    have hs := soakAligned_any sets1 sets2 h
    unfold runModel getresults
    rw [hs.1, hs.2]

/-- C1 witness: a run whose only failure is in a soak set succeeds, the same
failure in a non-soak set fails the run, and altering only soak outcomes
leaves the verdict unchanged. -/
theorem C1_soak_isolation_witness :
    runModel true true 3 [] [⟨true, [⟨TaskResult.Fail, false⟩]⟩] = SKT_SUCCESS ∧
    runModel true true 3 [] [⟨false, [⟨TaskResult.Fail, false⟩]⟩] = SKT_FAIL ∧
    runModel true true 3 [] [⟨true, [⟨TaskResult.Fail, false⟩]⟩] =
      runModel true true 3 [] [⟨true, [⟨TaskResult.Pass, false⟩]⟩] :=
  ⟨C1_soak_isolation.1 3 [] _ (by decide) (by decide) (by decide),
   C1_soak_isolation.2.1 3 [] _ ⟨false, [⟨TaskResult.Fail, false⟩]⟩
     (by decide) (by decide) (by decide) (by decide),
   C1_soak_isolation.2.2 true true 3 [] _ _ (by decide)⟩

/-- C6: once a first cleanup invocation has completed (the `cleanup_done`
flag is set), any number of further invocations — however many interrupt
signals arrive — performs zero additional external cancellation calls. -/
theorem C6_cleanup_idempotent :
    (∀ s : CleanupState, ((cleanup s).1).cleanup_done = true)
  ∧ (∀ (s : CleanupState) (n : Nat), cleanupCalls (cleanup s).1 n = 0)
  ∧ (∀ s : CleanupState, s.cleanup_done = true → cleanup s = (s, 0)) := by
  have hdone : ∀ s : CleanupState, ((cleanup s).1).cleanup_done = true := by
    intro s
    unfold cleanup
    split
    · next h => exact h
    · rfl
  have hfix : ∀ s : CleanupState, s.cleanup_done = true → cleanup s = (s, 0) := by
    intro s h
    unfold cleanup
    rw [if_pos h]
  refine ⟨hdone, ?_, hfix⟩
  intro s n
  induction n with
  | zero => rfl
  | succ k ih =>
    have h1 : cleanup (cleanup s).1 = ((cleanup s).1, 0) := hfix _ (hdone s)
    show (cleanup (cleanup s).1).2 + cleanupCalls (cleanup (cleanup s).1).1 k = 0
    rw [h1]
    simpa using ih

/-- C8: whenever some value in the substitution map is not a string, template
rendering raises an error rather than substituting a stringified value. -/
theorem C8_getxml_rejects_non_string (template : List Char)
    (subs : List (List Char × PyValue))
    (h : ∃ kv ∈ subs, isPyStr kv.2 = false) :
    getxml template subs = Except.error () := by
  induction subs generalizing template with
  | nil => obtain ⟨kv, hmem, _⟩ := h; exact absurd hmem (List.not_mem_nil kv)
  | cons kv rest ih =>
    obtain ⟨kv0, hmem, hstr⟩ := h
    rcases List.mem_cons.mp hmem with heq | htail
    · subst heq
      cases hv : kv0.2 with
      | pyStr s => rw [hv] at hstr; exact absurd hstr (by simp [isPyStr])
      | pyNone =>
        show getxml template (kv0 :: rest) = Except.error ()
        rw [show getxml template (kv0 :: rest) =
            match kv0.2 with
            | PyValue.pyStr s =>
              getxml (replaceAll (placeholder kv0.1) s template) rest
            | _ => Except.error () from rfl, hv]
      | pyOther =>
        show getxml template (kv0 :: rest) = Except.error ()
        rw [show getxml template (kv0 :: rest) =
            match kv0.2 with
            | PyValue.pyStr s =>
              getxml (replaceAll (placeholder kv0.1) s template) rest
            | _ => Except.error () from rfl, hv]
    · cases hv : kv.2 with
      | pyStr s =>
        show getxml template (kv :: rest) = Except.error ()
        rw [show getxml template (kv :: rest) =
            match kv.2 with
            | PyValue.pyStr s =>
              getxml (replaceAll (placeholder kv.1) s template) rest
            | _ => Except.error () from rfl, hv]
        exact ih _ ⟨kv0, htail, hstr⟩
      | pyNone =>
        show getxml template (kv :: rest) = Except.error ()
        rw [show getxml template (kv :: rest) =
            match kv.2 with
            | PyValue.pyStr s =>
              getxml (replaceAll (placeholder kv.1) s template) rest
            | _ => Except.error () from rfl, hv]
      | pyOther =>
        show getxml template (kv :: rest) = Except.error ()
        rw [show getxml template (kv :: rest) =
            match kv.2 with
            | PyValue.pyStr s =>
              getxml (replaceAll (placeholder kv.1) s template) rest
            | _ => Except.error () from rfl, hv]

/-- C8 witness: rendering with a `None` value for `KVER` raises, mirroring
test_getxml_invalid_replace. -/
theorem C8_getxml_rejects_non_string_witness :
    getxml ("<xml>##KVER##</xml>").data [(("KVER").data, PyValue.pyNone)] =
      Except.error () :=
  C8_getxml_rejects_non_string _ _
    ⟨(("KVER").data, PyValue.pyNone), by decide, by decide⟩

theorem countConsL_append (h : String) (xs ys : List Xml) :
    countConsL h (xs ++ ys) = countConsL h xs + countConsL h ys := by
  induction xs with
  | nil => simp [countConsL]
  | cons x xs ih =>
    show countCons h x + countConsL h (xs ++ ys) = countCons h x + countConsL h xs + countConsL h ys
    rw [ih]
    omega

theorem countConsL_constraints (h : String) (bl : List String) (hnd : bl.Nodup) :
    countConsL h (bl.map hostnameConstraint) = if h ∈ bl then 1 else 0 := by
  induction bl with
  | nil => simp [countConsL]
  | cons b bl ih =>
    obtain ⟨hb, hnd'⟩ := List.nodup_cons.mp hnd
    show countCons h (hostnameConstraint b) + countConsL h (bl.map hostnameConstraint) = _
    have hhead : countCons h (hostnameConstraint b) = if b = h then 1 else 0 := by
      show (if isConstraintFor h (hostnameConstraint b) then 1 else 0) + 0 = _
      by_cases hbh : b = h
      · subst hbh
        simp [isConstraintFor, hostnameConstraint]
      · have : isConstraintFor h (hostnameConstraint b) = false := by
          simp [isConstraintFor, hostnameConstraint, hbh]
        rw [this]
        simp [hbh]
    rw [hhead, ih hnd']
    by_cases hbh : b = h
    · subst hbh
      simp [hb]
    · simp [List.mem_cons, hbh, Ne.symm hbh]

theorem countConsL_appendToFirstAnd (h : String) (cons : List Xml) (ch : List Xml)
    (hch : ch.any isAndNode = true) :
    countConsL h (appendToFirstAnd cons ch) = countConsL h ch + countConsL h cons := by
  induction ch with
  | nil => exact absurd hch (by simp)
  | cons x xs ih =>
    show countConsL h (if isAndNode x then _ else _) = _
    by_cases hx : isAndNode x
    · rw [if_pos hx]
      cases x with
      | node t a ch' =>
        have htag : t = "and" := by simpa [isAndNode, tagOf] using hx
        have h1 : (if isConstraintFor h (Xml.node t a (ch' ++ cons)) then 1 else 0) = 0 := by
          simp [isConstraintFor, htag]
        have h2 : (if isConstraintFor h (Xml.node t a ch') then 1 else 0) = 0 := by
          simp [isConstraintFor, htag]
        show (if isConstraintFor h (Xml.node t a (ch' ++ cons)) then 1 else 0) +
            countConsL h (ch' ++ cons) + countConsL h xs = _
        rw [h1, countConsL_append]
        show _ = (if isConstraintFor h (Xml.node t a ch') then 1 else 0) +
            countConsL h ch' + countConsL h xs + countConsL h cons
        rw [h2]
        omega
    · rw [if_neg hx]
      have hxs : xs.any isAndNode = true := by
        rcases List.any_eq_true.mp hch with ⟨y, hy, hya⟩
        rcases List.mem_cons.mp hy with rfl | hy'
        · exact absurd hya hx
        · exact List.any_eq_true.mpr ⟨y, hy', hya⟩
      show countCons h x + countConsL h (appendToFirstAnd cons xs) = _
      rw [ih hxs]
      show _ = countCons h x + countConsL h xs + countConsL h cons
      omega

theorem countP_appendToFirstAnd (cons : List Xml) (ch : List Xml) :
    (appendToFirstAnd cons ch).countP isAndNode = ch.countP isAndNode := by
  induction ch with
  | nil => rfl
  | cons x xs ih =>
    show (if isAndNode x then _ else _ : List Xml).countP isAndNode = _
    by_cases hx : isAndNode x
    · rw [if_pos hx]
      cases x with
      | node t a ch' =>
        have : isAndNode (Xml.node t a (ch' ++ cons)) = isAndNode (Xml.node t a ch') := rfl
        simp [List.countP_cons, this]
    · rw [if_neg hx]
      simp [List.countP_cons, ih]

/-- C5: applying the host-exclusion filter to a host-requirement subtree
(whose root is the `hostRequires` container, not itself a hostname element)
adds exactly one hostname-not-equal exclusion constraint per blacklisted host
to whatever the subtree already contained, creating the `&lt;and&gt;`
conjunction container when none exists and appending to the existing one
otherwise. -/
theorem C5_blacklist_hreq_adds_constraints :
    (∀ (bl : List String) (hreq : Xml) (h : String), bl.Nodup →
      tagOf hreq ≠ "hostname" →
      countCons h (blacklist_hreq bl hreq) =
        countCons h hreq + (if h ∈ bl then 1 else 0))
  ∧ (∀ (bl : List String) (hreq : Xml),
      countAndChildren (blacklist_hreq bl hreq) =
        (if hasAndChild hreq then countAndChildren hreq
         else countAndChildren hreq + 1)) := by
  constructor
  · intro bl hreq h hnd hroot
    cases hreq with
    | node t a ch =>
      have ht : t ≠ "hostname" := hroot
      have hcf : ∀ ch' : List Xml,
          (if isConstraintFor h (Xml.node t a ch') then 1 else 0) = 0 := by
        intro ch'
        simp [isConstraintFor, ht]
      show countCons h
        (if ch.any isAndNode then Xml.node t a (appendToFirstAnd (bl.map hostnameConstraint) ch)
         else Xml.node t a (ch ++ [Xml.node "and" [] (bl.map hostnameConstraint)])) = _
      have hrhs : countCons h (Xml.node t a ch) = countConsL h ch := by
        show (if isConstraintFor h (Xml.node t a ch) then 1 else 0) + countConsL h ch = _
        rw [hcf ch]
        simp
      by_cases hand : ch.any isAndNode
      · rw [if_pos hand]
        show (if isConstraintFor h (Xml.node t a (appendToFirstAnd (bl.map hostnameConstraint) ch))
            then 1 else 0) + countConsL h (appendToFirstAnd (bl.map hostnameConstraint) ch) = _
        rw [hcf, countConsL_appendToFirstAnd h _ ch hand,
          countConsL_constraints h bl hnd, hrhs]
        omega
      · rw [if_neg hand]
        show (if isConstraintFor h (Xml.node t a (ch ++ [Xml.node "and" [] (bl.map hostnameConstraint)]))
            then 1 else 0) +
          countConsL h (ch ++ [Xml.node "and" [] (bl.map hostnameConstraint)]) = _
        rw [hcf, countConsL_append, hrhs]
        have hone : countConsL h [Xml.node "and" [] (bl.map hostnameConstraint)] =
            if h ∈ bl then 1 else 0 := by
          show countCons h (Xml.node "and" [] (bl.map hostnameConstraint)) + 0 = _
          show (if isConstraintFor h (Xml.node "and" [] (bl.map hostnameConstraint)) then 1 else 0) +
            countConsL h (bl.map hostnameConstraint) + 0 = _
          have hz : (if isConstraintFor h (Xml.node "and" [] (bl.map hostnameConstraint))
              then 1 else 0) = 0 := by
            simp [isConstraintFor]
          rw [hz, countConsL_constraints h bl hnd]
          simp
        rw [hone]
        omega
  · intro bl hreq
    cases hreq with
    | node t a ch =>
      show countAndChildren
        (if ch.any isAndNode then Xml.node t a (appendToFirstAnd (bl.map hostnameConstraint) ch)
         else Xml.node t a (ch ++ [Xml.node "and" [] (bl.map hostnameConstraint)])) = _
      by_cases hand : ch.any isAndNode
      · rw [if_pos hand]
        show (appendToFirstAnd (bl.map hostnameConstraint) ch).countP isAndNode = _
        rw [countP_appendToFirstAnd]
        simp [hasAndChild, countAndChildren, childrenOf, hand]
      · rw [if_neg hand]
        show (ch ++ [Xml.node "and" [] (bl.map hostnameConstraint)]).countP isAndNode = _
        rw [List.countP_append]
        have : ([Xml.node "and" [] (bl.map hostnameConstraint)] : List Xml).countP isAndNode = 1 := by
          simp [List.countP_cons, isAndNode, tagOf]
        rw [this]
        rw [if_neg (show ¬(hasAndChild (Xml.node t a ch) = true) from hand)]
        rfl

/-- C5 witness: the theorem applied to the blacklist and empty
`hostRequires` subtree of test_blacklist_hreq_noand. -/
theorem C5_blacklist_hreq_adds_constraints_witness :
    countCons "host1" (blacklist_hreq ["host1", "host2"] (Xml.node "hostRequires" [] [])) =
      countCons "host1" (Xml.node "hostRequires" [] []) + 1 := by
  have h := C5_blacklist_hreq_adds_constraints.1 ["host1", "host2"]
    (Xml.node "hostRequires" [] []) "host1" (by decide) (by decide)
  simpa using h

mutual

theorem stripTag_zero (tg : String) (x : Xml) (hx : tagOf x ≠ tg) :
    countTag tg (stripTag tg x) = 0 := by
  cases x with
  | node t a ch =>
    show (if t = tg then 1 else 0) + countTagL tg (stripTagL tg ch) = 0
    rw [stripTagL_zero tg ch, if_neg (show t ≠ tg from hx)]

theorem stripTagL_zero (tg : String) (xs : List Xml) :
    countTagL tg (stripTagL tg xs) = 0 := by
  cases xs with
  | nil => rfl
  | cons x xs =>
    show countTagL tg
      (if tagOf x = tg then stripTagL tg xs else stripTag tg x :: stripTagL tg xs) = 0
    by_cases h : tagOf x = tg
    · rw [if_pos h]
      exact stripTagL_zero tg xs
    · rw [if_neg h]
      show countTag tg (stripTag tg x) + countTagL tg (stripTagL tg xs) = 0
      rw [stripTag_zero tg x h, stripTagL_zero tg xs]

end

/-- C7: the narrowed single-recipe-set job derived from a failed recipe set
result contains no hostname constraint unless the explicit same-host override
is requested, in which case the original host pin is preserved; the result is
always a `job` element. -/
theorem C7_recipe_set_to_job_host_pin :
    (∀ rs : Xml, tagOf rs = "recipeSet" →
      countTag "hostname" (recipe_set_to_job rs false) = 0)
  ∧ (∀ rs : Xml,
      countTag "hostname" (recipe_set_to_job rs true) = countTag "hostname" rs)
  ∧ (∀ (rs : Xml) (samehost : Bool), tagOf (recipe_set_to_job rs samehost) = "job") := by
  refine ⟨?_, ?_, ?_⟩
  · intro rs hrs
    show countTag "hostname" (Xml.node "job" [] [stripTag "hostname" rs]) = 0
    show (if "job" = "hostname" then 1 else 0) +
      (countTag "hostname" (stripTag "hostname" rs) + countTagL "hostname" []) = 0
    rw [stripTag_zero "hostname" rs (by rw [hrs]; decide)]
    rfl
  · intro rs
    show countTag "hostname" (Xml.node "job" [] [rs]) = countTag "hostname" rs
    show (if "job" = "hostname" then 1 else 0) +
      (countTag "hostname" rs + countTagL "hostname" []) = countTag "hostname" rs
    show 0 + (countTag "hostname" rs + 0) = countTag "hostname" rs
    omega
  · intro rs samehost
    rfl

/-- C7 witness: the recipe set of test_recipe_set_to_job_whst, whose
hostname pin disappears without the same-host override and survives with
it. -/
theorem C7_recipe_set_to_job_host_pin_witness :
    countTag "hostname"
      (recipe_set_to_job
        (Xml.node "recipeSet" []
          [Xml.node "recipe" []
            [Xml.node "hostRequires" []
              [Xml.node "hostname" [("op", "!="), ("value", "hst1")] []]]]) false) = 0 :=
  C7_recipe_set_to_job_host_pin.1
    (Xml.node "recipeSet" []
      [Xml.node "recipe" []
        [Xml.node "hostRequires" []
          [Xml.node "hostname" [("op", "!="), ("value", "hst1")] []]]])
    (by decide)

theorem splitQuote_sound (cs : List Char) :
    ∀ p, splitQuote cs = some p → cs = p.1 ++ sq :: p.2 ∧ sq ∉ p.1 := by
  induction cs with
  | nil => intro p h; exact absurd h (by simp [splitQuote])
  | cons c rest ih =>
    intro p h
    by_cases hc : c = sq
    · rw [show splitQuote (c :: rest) = some ([], rest) from by
        simp [splitQuote, hc]] at h
      obtain rfl := Option.some.inj h
      exact ⟨by simp [hc], by simp⟩
    · rw [show splitQuote (c :: rest) = (splitQuote rest).map (fun q => (c :: q.1, q.2)) from by
        simp [splitQuote, hc]] at h
      cases hr : splitQuote rest with
      | none => rw [hr] at h; exact absurd h (by simp)
      | some q =>
        rw [hr] at h
        simp only [Option.map_some'] at h
        obtain rfl := Option.some.inj h
        obtain ⟨hq1, hq2⟩ := ih q hr
        refine ⟨by simp [← hq1], ?_⟩
        simp only [List.mem_cons]
        rintro (heq | hin)
        · exact hc heq.symm
        · exact hq2 hin

theorem splitQuote_complete (a b : List Char) (ha : sq ∉ a) :
    splitQuote (a ++ sq :: b) = some (a, b) := by
  induction a with
  | nil => simp [splitQuote]
  | cons c a ih =>
    simp only [List.mem_cons, not_or] at ha
    have hc : ¬ c = sq := fun e => ha.1 e.symm
    have := ih ha.2
    simp [splitQuote, hc, this]

theorem parseIdsF_render (ids : List (List Char)) :
    ∀ fuel, (renderIds ids).length ≤ fuel → ids ≠ [] →
      (∀ id ∈ ids, sq ∉ id) →
      parseIdsF fuel (renderIds ids) = some ids := by
  induction ids with
  | nil => intro fuel _ hne _; exact absurd rfl hne
  | cons id rest ih =>
    intro fuel hlen _ hfree
    have hid : sq ∉ id := hfree id (List.mem_cons_self id rest)
    cases rest with
    | nil =>
      have hshape : renderIds [id] = sq :: (id ++ sq :: [']']) := by
        simp [renderIds]
      rw [hshape] at hlen ⊢
      cases fuel with
      | zero => simp at hlen
      | succ k =>
        show parseIdsF (k + 1) (sq :: (id ++ sq :: [']'])) = some [id]
        rw [show parseIdsF (k + 1) (sq :: (id ++ sq :: [']'])) =
            (if (sq : Char) = sq then
              match splitQuote (id ++ sq :: [']']) with
              | none => none
              | some (i, rest') =>
                if rest' = [']'] then some [i]
                else
                  match rest' with
                  | c1 :: c2 :: rest2 =>
                    if c1 = ',' ∧ c2 = ' ' then (parseIdsF k rest2).map (fun xs => i :: xs)
                    else none
                  | _ => none
            else none) from rfl]
        rw [if_pos rfl, splitQuote_complete id [']'] hid]
        simp
    | cons id2 rest' =>
      have hshape : renderIds (id :: id2 :: rest') =
          sq :: (id ++ sq :: ',' :: ' ' :: renderIds (id2 :: rest')) := by
        simp [renderIds]
      rw [hshape] at hlen ⊢
      cases fuel with
      | zero => simp at hlen
      | succ k =>
        have hk : (renderIds (id2 :: rest')).length ≤ k := by
          simp only [List.length_cons, List.length_append] at hlen
          omega
        have hrec := ih k hk (by simp) (fun x hx => hfree x (List.mem_cons_of_mem id hx))
        show parseIdsF (k + 1) (sq :: (id ++ sq :: ',' :: ' ' :: renderIds (id2 :: rest'))) =
          some (id :: id2 :: rest')
        rw [show parseIdsF (k + 1) (sq :: (id ++ sq :: ',' :: ' ' :: renderIds (id2 :: rest'))) =
            (if (sq : Char) = sq then
              match splitQuote (id ++ sq :: ',' :: ' ' :: renderIds (id2 :: rest')) with
              | none => none
              | some (i, rest'') =>
                if rest'' = [']'] then some [i]
                else
                  match rest'' with
                  | c1 :: c2 :: rest2 =>
                    if c1 = ',' ∧ c2 = ' ' then (parseIdsF k rest2).map (fun xs => i :: xs)
                    else none
                  | _ => none
            else none) from rfl]
        rw [if_pos rfl, splitQuote_complete id (',' :: ' ' :: renderIds (id2 :: rest')) hid]
        simp [hrec]

theorem parseIdsF_sound (fuel : Nat) :
    ∀ cs ids, parseIdsF fuel cs = some ids →
      ids ≠ [] ∧ (∀ id ∈ ids, sq ∉ id) ∧ cs = renderIds ids := by
  induction fuel with
  | zero => intro cs ids h; exact absurd h (by simp [parseIdsF])
  | succ k ih =>
    intro cs ids h
    cases cs with
    | nil => exact absurd h (by simp [parseIdsF])
    | cons c rest =>
      rw [show parseIdsF (k + 1) (c :: rest) =
          (if c = sq then
            match splitQuote rest with
            | none => none
            | some (i, rest') =>
              if rest' = [']'] then some [i]
              else
                match rest' with
                | c1 :: c2 :: rest2 =>
                  if c1 = ',' ∧ c2 = ' ' then (parseIdsF k rest2).map (fun xs => i :: xs)
                  else none
                | _ => none
          else none) from rfl] at h
      by_cases hc : c = sq
      · rw [if_pos hc] at h
        cases hsplit : splitQuote rest with
        | none => rw [hsplit] at h; exact absurd h (by simp)
        | some p =>
          rw [hsplit] at h
          obtain ⟨hrest, hfree⟩ := splitQuote_sound rest p hsplit
          rcases p with ⟨id, rest'⟩
          simp only at h hrest hfree
          by_cases hbr : rest' = [']']
          · rw [if_pos hbr] at h
            obtain rfl := Option.some.inj h
            refine ⟨by simp, ?_, ?_⟩
            · intro x hx
              rw [List.mem_singleton.mp hx]
              exact hfree
            · rw [hc, hrest, hbr]
              simp [renderIds]
          · rw [if_neg hbr] at h
            rcases rest' with _ | ⟨c1, rest''⟩
            · exact absurd h (by simp)
            · rcases rest'' with _ | ⟨c2, rest2⟩
              · exact absurd h (by simp)
              · dsimp only at h
                by_cases hcs : c1 = ',' ∧ c2 = ' '
                · rw [if_pos hcs] at h
                  obtain ⟨hc1, hc2⟩ := hcs
                  cases hrec : parseIdsF k rest2 with
                  | none => rw [hrec] at h; exact absurd h (by simp)
                  | some ids' =>
                    rw [hrec] at h
                    simp only [Option.map_some'] at h
                    obtain rfl := Option.some.inj h
                    obtain ⟨hne', hfree', hrest2⟩ := ih rest2 ids' hrec
                    refine ⟨by simp, ?_, ?_⟩
                    · intro x hx
                      rcases List.mem_cons.mp hx with rfl | hx'
                      · exact hfree
                      · exact hfree' x hx'
                    · rcases ids' with _ | ⟨j, tl⟩
                      · exact absurd rfl hne'
                      · rw [hc, hrest, hc1, hc2, hrest2]
                        simp [renderIds]
                · rw [if_neg hcs] at h
                  exact absurd h (by simp)
      · rw [if_neg hc] at h
        exact absurd h (by simp)

theorem splitOnChar_not_mem (sep : Char) (cs : List Char) :
    ∀ l ∈ splitOnChar sep cs, sep ∉ l := by
  induction cs with
  | nil =>
    intro l hl
    rw [List.mem_singleton.mp hl]
    exact List.not_mem_nil sep
  | cons c rest ih =>
    intro l hl
    by_cases hc : c = sep
    · rw [show splitOnChar sep (c :: rest) = [] :: splitOnChar sep rest from by
        simp [splitOnChar, hc]] at hl
      rcases List.mem_cons.mp hl with rfl | hl'
      · exact List.not_mem_nil sep
      · exact ih l hl'
    · cases hr : splitOnChar sep rest with
      | nil =>
        rw [show splitOnChar sep (c :: rest) = [[c]] from by
          simp [splitOnChar, hc, hr]] at hl
        rw [List.mem_singleton.mp hl]
        simp only [List.mem_singleton]
        exact fun e => hc e.symm
      | cons l0 ls =>
        rw [show splitOnChar sep (c :: rest) = (c :: l0) :: ls from by
          simp [splitOnChar, hc, hr]] at hl
        rcases List.mem_cons.mp hl with rfl | hl'
        · simp only [List.mem_cons, not_or]
          refine ⟨fun e => hc e.symm, ?_⟩
          exact ih l0 (by rw [hr]; exact List.mem_cons_self l0 ls)
        · exact ih l (by rw [hr]; exact List.mem_cons_of_mem l0 hl')

theorem splitOnChar_of_not_mem (sep : Char) (cs : List Char) (h : sep ∉ cs) :
    splitOnChar sep cs = [cs] := by
  induction cs with
  | nil => rfl
  | cons c rest ih =>
    simp only [List.mem_cons, not_or] at h
    have hc : ¬ c = sep := fun e => h.1 e.symm
    simp [splitOnChar, hc, ih h.2]

theorem renderIds_no_newline (ids : List (List Char))
    (h : ∀ id ∈ ids, '\n' ∉ id) : '\n' ∉ renderIds ids := by
  induction ids with
  | nil => decide
  | cons id rest ih =>
    have hid : '\n' ∉ id := h id (List.mem_cons_self id rest)
    cases rest with
    | nil =>
      show '\n' ∉ sq :: id ++ [sq, ']']
      simp only [List.cons_append, List.mem_cons, List.mem_append, not_or]
      exact ⟨by decide, hid, by decide⟩
    | cons id2 rest' =>
      have ih' := ih (fun x hx => h x (List.mem_cons_of_mem id hx))
      show '\n' ∉ sq :: id ++ [sq, ',', ' '] ++ renderIds (id2 :: rest')
      simp only [List.cons_append, List.mem_cons, List.mem_append, not_or]
      exact ⟨by decide, ⟨hid, by decide⟩, ih'⟩

theorem mem_renderIds_of_mem_id (ids : List (List Char)) (id : List Char)
    (hid : id ∈ ids) (c : Char) (hc : c ∈ id) : c ∈ renderIds ids := by
  induction ids with
  | nil => exact absurd hid (List.not_mem_nil id)
  | cons id0 rest ih =>
    rcases List.mem_cons.mp hid with rfl | hmem
    · cases rest with
      | nil =>
        show c ∈ sq :: id ++ [sq, ']']
        simp only [List.cons_append, List.mem_cons, List.mem_append]
        exact Or.inr (Or.inl hc)
      | cons id2 rest' =>
        show c ∈ sq :: id ++ [sq, ',', ' '] ++ renderIds (id2 :: rest')
        simp only [List.cons_append, List.mem_cons, List.mem_append]
        exact Or.inr (Or.inl (Or.inl hc))
    · have hne : rest ≠ [] := List.ne_nil_of_mem hmem
      obtain ⟨id2, rest', rfl⟩ := List.exists_cons_of_ne_nil hne
      show c ∈ sq :: id0 ++ [sq, ',', ' '] ++ renderIds (id2 :: rest')
      simp only [List.cons_append, List.mem_cons, List.mem_append]
      exact Or.inr (Or.inr (ih hmem))

/-- C4: job submission returns the exact ordered list of quoted identifiers
for every tool output containing an acknowledgment line of the grammar, and
raises a submission error for every output containing no such line, never
returning a partial or empty list. -/
theorem C4_jobsubmit_grammar :
    (∀ ids : List (List Char),
      ids ≠ [] → (∀ id ∈ ids, sq ∉ id ∧ '\n' ∉ id) →
      jobsubmit (renderAckLine ids) = Except.ok ids)
  ∧ (∀ s : List Char,
      (¬ ∃ ids : List (List Char), ids ≠ [] ∧ (∀ id ∈ ids, sq ∉ id ∧ '\n' ∉ id) ∧
        renderAckLine ids ∈ splitOnChar '\n' s) →
      jobsubmit s = Except.error ()) := by
  constructor
  · intro ids hne hval
    have hnl : '\n' ∉ renderAckLine ids := by
      have h1 : '\n' ∉ renderIds ids :=
        renderIds_no_newline ids (fun id hid => (hval id hid).2)
      show '\n' ∉ submittedMarker ++ renderIds ids
      simp only [List.mem_append, not_or]
      exact ⟨by decide, h1⟩
    have hline : parseAckLine (renderAckLine ids) = some ids := by
      unfold parseAckLine renderAckLine
      have hpl : submittedMarker.length = 12 := rfl
      have ht : (submittedMarker ++ renderIds ids).take 12 = submittedMarker := by
        rw [← hpl, List.take_left]
      have hd : (submittedMarker ++ renderIds ids).drop 12 = renderIds ids := by
        rw [← hpl, List.drop_left]
      rw [if_pos ht, hd]
      exact parseIdsF_render ids _ (le_refl _) hne (fun id hid => (hval id hid).1)
    unfold jobsubmit
    rw [splitOnChar_of_not_mem '\n' _ hnl, List.findSome?_cons, hline]
  · intro s hno
    unfold jobsubmit
    cases hf : (splitOnChar '\n' s).findSome? parseAckLine with
    | none => rfl
    | some ids =>
      exfalso
      obtain ⟨l, hl, hparse⟩ := List.exists_of_findSome?_eq_some hf
      unfold parseAckLine at hparse
      by_cases ht : l.take 12 = submittedMarker
      · rw [if_pos ht] at hparse
        obtain ⟨hne, hfree, hrender⟩ := parseIdsF_sound _ _ _ hparse
        have hl_eq : l = renderAckLine ids := by
          conv_lhs => rw [← List.take_append_drop 12 l]
          rw [ht, hrender]
          rfl
        have hnl : '\n' ∉ l := splitOnChar_not_mem '\n' s l hl
        apply hno
        refine ⟨ids, hne, ?_, by rw [← hl_eq]; exact hl⟩
        intro id hid
        refine ⟨hfree id hid, fun hmem => hnl ?_⟩
        rw [hl_eq]
        show '\n' ∈ submittedMarker ++ renderIds ids
        rw [List.mem_append]
        exact Or.inr (mem_renderIds_of_mem_id ids id hid '\n' hmem)
      · rw [if_neg ht] at hparse
        exact absurd hparse (by simp)

/-- C4 witness: the acknowledgment of test_jobsubmit parses to its identifier,
and the malformed acknowledgment of test_jobsubmit_exc raises. -/
theorem C4_jobsubmit_grammar_witness :
    jobsubmit (renderAckLine [['1', '2', '3']]) = Except.ok [['1', '2', '3']] ∧
    jobsubmit (("Submitted: a horse").data) = Except.error () :=
  ⟨C4_jobsubmit_grammar.1 [['1', '2', '3']] (by decide) (by decide),
   C4_jobsubmit_grammar.2 (("Submitted: a horse").data) (by
     rintro ⟨ids, hne, hval, hmem⟩
     rw [show splitOnChar '\n' (("Submitted: a horse").data) =
         [("Submitted: a horse").data] from rfl] at hmem
     have heq := List.mem_singleton.mp hmem
     have htake := congrArg (List.take 12) heq
     rw [show (renderAckLine ids).take 12 = submittedMarker from by
       show (submittedMarker ++ renderIds ids).take 12 = submittedMarker
       rw [show (12 : Nat) = submittedMarker.length from rfl, List.take_left]] at htake
     exact absurd htake (by decide))⟩

/-- C3: the `run` entry point always returns one of the four verdict codes
Success = 0, Failure = 1, Error = 2, Boot-failure = 3. -/
theorem C3_run_verdict_codes :
    (SKT_SUCCESS = 0 ∧ SKT_FAIL = 1 ∧ SKT_ERROR = 2 ∧ SKT_BOOT = 3)
  ∧ (∀ (wait dispatchOK : Bool) (m : Nat) (evs : List SetClass)
      (sets : List RSet),
      runModel wait dispatchOK m evs sets = SKT_SUCCESS ∨
      runModel wait dispatchOK m evs sets = SKT_FAIL ∨
      runModel wait dispatchOK m evs sets = SKT_ERROR ∨
      runModel wait dispatchOK m evs sets = SKT_BOOT) := by
  refine ⟨⟨rfl, rfl, rfl, rfl⟩, ?_⟩
  intro wait dispatchOK m evs sets
  unfold runModel getresults
  split_ifs <;> decide

end Skt
